import Mathlib

/-!
Verification of the website spell checker / link checker
(`website_spellcheck.py`) against its specification.

The development shallowly embeds the claim-relevant parts of the source:

* a small backtracking regular-expression engine faithful to the Python
  `re` semantics used by the source (greedy character classes, ordered
  alternation, word boundaries, `finditer`-style non-overlapping scanning);
  the engine is written with an explicit fuel argument so that it is
  structurally recursive and evaluates inside the kernel; every wrapper
  supplies fuel that is provably larger than the depth of any backtracking
  path, so the fuel never runs out,
* the email/domain fragment filter `_is_email_or_domain_fragment`,
* the spell-check pipeline `spell_check_text` (tokenisation, the
  proper-noun gate, the fragment filter, dictionary lookup, confidence),
* the link checker `_check_single_link` / `_check_all_links_on_page`
  with its run-wide dedup set, including an interleaved model of the
  thread-pool workers that splits the unsynchronized check-then-insert
  at its statement boundary,
* the sitemap resolver `_parse_sitemap` with its visited-set guard,
* the bounded breadth-first crawler `_recursive_crawl`,
* the URL filter `_filter_urls` / `_match_pattern` (glob matching),
* the per-page coordinator `process_url`.

External collaborators (HTTP transport, HTML parsing, `urllib.parse`,
the base dictionary, the system clock) are passed in as parameters, so
theorems quantify over them.  Timestamps carried by the Python records
are omitted (they come from the external clock and no claim concerns
them).
-/

namespace WebCheck

/-! ### Character classes

The classes used by the source's regexes.  The source texts and URLs
are ASCII; `Char.isAlpha`/`Char.isAlphanum` are the ASCII classes,
matching Python's `[a-zA-Z]`/`[a-zA-Z0-9]`.  Python's `\s` is modelled
by the six ASCII whitespace characters; `\w` (used by `\b`) by
alphanumerics plus underscore. -/

def isLetterA (c : Char) : Bool := c.isAlpha

def isAlnumA (c : Char) : Bool := c.isAlphanum

def isWsPy (c : Char) : Bool :=
  c == ' ' || c == '\t' || c == '\n' || c == '\r' || c == '\x0b' || c == '\x0c'

def isNonWs (c : Char) : Bool := !isWsPy c

def isWordChar (c : Char) : Bool := c.isAlphanum || c == '_'

def isWordOpt : Option Char → Bool
  | none => false
  | some c => isWordChar c

theorem isWordOpt_none : isWordOpt none = false := rfl

theorem isWordOpt_some (c : Char) : isWordOpt (some c) = isWordChar c := rfl

/-- Class `[a-zA-Z0-9._%+-]` (email local part). -/
def emailLocalC (c : Char) : Bool :=
  c.isAlphanum || c == '.' || c == '_' || c == '%' || c == '+' || c == '-'

/-- Class `[a-zA-Z0-9.-]` (host names). -/
def hostC (c : Char) : Bool := c.isAlphanum || c == '.' || c == '-'

/-- A literal character of a pattern; compared case-insensitively
because the source compiles every pattern with `re.IGNORECASE` (the
fold is the identity on the non-letter literals `@ . : /`). -/
def cEq (c : Char) : Char → Bool := fun d => d.toLower == c

/-! ### A backtracking regex engine

The source's patterns are sequences of: single character classes,
greedy `*`/`+`/`{n,}` over a class, an optional class character (`s?`),
literal strings, ordered alternation of literal strings, and `\b`.
`Atom` captures exactly these shapes; `+` and `{n,}` are desugared as
forced single characters followed by a greedy star, as in a backtracking
engine. -/

inductive Atom where
  | one : (Char → Bool) → Atom
  | star : (Char → Bool) → Atom
  | opt : (Char → Bool) → Atom
  | lit : List Char → Atom
  | alts : List (List Char) → Atom
  | wb : Atom

/-- Case-insensitive literal test (the source compiles every pattern with
`re.IGNORECASE`; pattern literals are lower case). -/
def litTest : List Char → List Char → Bool
  | [], _ => true
  | _ :: _, [] => false
  | c :: l, d :: s => (d.toLower == c) && litTest l s

/-- The character preceding the current position after consuming
`consumed`; needed for `\b`. -/
def newPrev (prev : Option Char) (consumed : List Char) : Option Char :=
  match consumed.getLast? with
  | some c => some c
  | none => prev

/-- Python `\b`: a word boundary separates a word character from a
non-word character (string ends count as non-word). -/
def atBoundary (prev : Option Char) (s : List Char) : Bool :=
  isWordOpt prev != isWordOpt s.head?

/-- Match a sequence of atoms at the current position, with Python's
backtracking semantics: greedy stars try the longest extension first,
alternations are tried left to right, and the first overall success
wins.  On success it returns the unconsumed suffix.  `fuel` bounds the
depth of one backtracking path (each recursive call consumes one unit);
wrappers pass `engineFuel`, which exceeds every path. -/
def matchSeqF : Nat → List Atom → Option Char → List Char → Option (List Char)
  | 0, _, _, _ => none
  | _ + 1, [], _, s => some s
  | fuel + 1, Atom.one p :: rs, _, s =>
    match s with
    | [] => none
    | c :: t => if p c then matchSeqF fuel rs (some c) t else none
  | fuel + 1, Atom.star p :: rs, prev, s =>
    match s with
    | [] => matchSeqF fuel rs prev []
    | c :: t =>
      if p c then
        match matchSeqF fuel (Atom.star p :: rs) (some c) t with
        | some r => some r
        | none => matchSeqF fuel rs prev (c :: t)
      else matchSeqF fuel rs prev (c :: t)
  | fuel + 1, Atom.opt p :: rs, prev, s =>
    match s with
    | [] => matchSeqF fuel rs prev []
    | c :: t =>
      if p c then
        match matchSeqF fuel rs (some c) t with
        | some r => some r
        | none => matchSeqF fuel rs prev (c :: t)
      else matchSeqF fuel rs prev (c :: t)
  | fuel + 1, Atom.lit l :: rs, prev, s =>
    if litTest l s then
      matchSeqF fuel rs (newPrev prev (s.take l.length)) (s.drop l.length)
    else none
  | fuel + 1, Atom.alts ls :: rs, prev, s =>
    match ls with
    | [] => none
    | l :: ls2 =>
      if litTest l s then
        match matchSeqF fuel rs (newPrev prev (s.take l.length)) (s.drop l.length) with
        | some r => some r
        | none => matchSeqF fuel (Atom.alts ls2 :: rs) prev s
      else matchSeqF fuel (Atom.alts ls2 :: rs) prev s
  | fuel + 1, Atom.wb :: rs, prev, s =>
    if atBoundary prev s then matchSeqF fuel rs prev s else none

/-- Total length of alternation lists in a pattern (each rejected
alternative consumes one fuel unit). -/
def altsWeight : List Atom → Nat
  | [] => 0
  | Atom.alts ls :: rs => ls.length + altsWeight rs
  | _ :: rs => altsWeight rs

/-- Fuel that strictly exceeds the depth of any backtracking path of
`matchSeqF`: every step either consumes an input character, discharges
an atom, or discards one alternative. -/
def engineFuel (atoms : List Atom) (s : List Char) : Nat :=
  s.length + atoms.length + altsWeight atoms + 2

/-- `re.finditer` scanning: at each position try a match; on success
report the span and resume at its end (or one past it for an empty
match), on failure advance one character.  Spans are `(start, end)`
with `end` exclusive, exactly Python's `m.start()`/`m.end()`. -/
def scanF (atoms : List Atom) : Nat → Option Char → List Char → Nat → List (Nat × Nat)
  | 0, _, _, _ => []
  | fuel + 1, prev, s, pos =>
    match s with
    | [] =>
      match matchSeqF (engineFuel atoms []) atoms prev [] with
      | some _ => [(pos, pos)]
      | none => []
    | c :: t =>
      match matchSeqF (engineFuel atoms s) atoms prev s with
      | some rest =>
        let k := s.length - rest.length
        if k = 0 then (pos, pos) :: scanF atoms fuel (some c) t (pos + 1)
        else (pos, pos + k) :: scanF atoms fuel (newPrev prev (s.take k)) (s.drop k) (pos + k)
      | none => scanF atoms fuel (some c) t (pos + 1)

/-- All `finditer` spans of a pattern over a string. -/
def findSpans (atoms : List Atom) (s : List Char) : List (Nat × Nat) :=
  scanF atoms (s.length + 1) none s 0

/-- Python's `m.start() <= pos < m.end()` test over all matches. -/
def overlapsAt (spans : List (Nat × Nat)) (pos : Nat) : Bool :=
  spans.any (fun ij => ij.1 ≤ pos && pos < ij.2)

/-! ### The source's patterns (`_is_email_or_domain_fragment`)

Each pattern is the atom sequence of the corresponding regex literal in
the source; `X+` is desugared to `X, X*` and `X{2,}` to `X, X, X*`. -/

/-- Regex `\b[a-zA-Z0-9._%+-]+@[a-zA-Z0-9.-]+\.[a-zA-Z]{2,}\b`. -/
def emailPat1 : List Atom :=
  [Atom.wb, Atom.one emailLocalC, Atom.star emailLocalC, Atom.one (cEq '@'),
   Atom.one hostC, Atom.star hostC, Atom.one (cEq '.'),
   Atom.one isLetterA, Atom.one isLetterA, Atom.star isLetterA, Atom.wb]

/-- Regex `\b[a-zA-Z0-9._%+-]+\s*@\s*[a-zA-Z0-9.-]+\s*\.\s*[a-zA-Z]{2,}\b`. -/
def emailPat2 : List Atom :=
  [Atom.wb, Atom.one emailLocalC, Atom.star emailLocalC, Atom.star isWsPy,
   Atom.one (cEq '@'), Atom.star isWsPy, Atom.one hostC, Atom.star hostC,
   Atom.star isWsPy, Atom.one (cEq '.'), Atom.star isWsPy,
   Atom.one isLetterA, Atom.one isLetterA, Atom.star isLetterA, Atom.wb]

/-- The TLD alternation of the first domain pattern, in source order. -/
def tldsA : List (List Char) :=
  ["com".data, "org".data, "net".data, "edu".data, "gov".data, "info".data,
   "biz".data, "co.uk".data, "ca".data, "au".data, "de".data, "fr".data,
   "it".data, "es".data, "ru".data, "jp".data, "cn".data, "in".data]

/-- The TLD alternation of the compound-domain pattern. -/
def tldsB : List (List Char) :=
  ["com".data, "org".data, "net".data, "edu".data, "gov".data, "info".data]

/-- Regex `\b[a-zA-Z0-9.-]+\.(com|org|net|edu|gov|info|biz|co\.uk|ca|au|de|fr|it|es|ru|jp|cn|in)\b`. -/
def domainPat1 : List Atom :=
  [Atom.wb, Atom.one hostC, Atom.star hostC, Atom.one (cEq '.'),
   Atom.alts tldsA, Atom.wb]

/-- Regex `\bwww\.[a-zA-Z0-9.-]+\.[a-zA-Z]{2,}\b`. -/
def wwwPat : List Atom :=
  [Atom.wb, Atom.lit "www".data, Atom.one (cEq '.'), Atom.one hostC,
   Atom.star hostC, Atom.one (cEq '.'),
   Atom.one isLetterA, Atom.one isLetterA, Atom.star isLetterA, Atom.wb]

/-- Regex `\bhttps?://[a-zA-Z0-9.-]+\.[a-zA-Z]{2,}[^\s]*\b`. -/
def urlPat : List Atom :=
  [Atom.wb, Atom.lit "http".data, Atom.opt (cEq 's'), Atom.lit "://".data,
   Atom.one hostC, Atom.star hostC, Atom.one (cEq '.'),
   Atom.one isLetterA, Atom.one isLetterA, Atom.star isLetterA,
   Atom.star isNonWs, Atom.wb]

/-- Regex `\b[a-zA-Z]+[a-zA-Z0-9]*\.(com|org|net|edu|gov|info)\b`. -/
def compoundPat : List Atom :=
  [Atom.wb, Atom.one isLetterA, Atom.star isLetterA, Atom.star isAlnumA,
   Atom.one (cEq '.'), Atom.alts tldsB, Atom.wb]

/-- The fixed list of known genealogy site names in the source. -/
def genealogySites : List (List Char) :=
  ["familysearch".data, "ancestry".data, "myheritage".data, "findmypast".data,
   "genealogybank".data, "familytree".data, "rootsweb".data, "geni".data,
   "wikitree".data, "billiongraves".data, "findagrave".data,
   "newspapers".data, "chroniclingamerica".data, "familytreemagazine".data]

/-! ### Substring helpers (Python `in` on strings, `split`, `lower`) -/

/-- Exact (case-sensitive) prefix test on character lists. -/
def startsL : List Char → List Char → Bool
  | [], _ => true
  | _ :: _, [] => false
  | c :: l, d :: s => (c == d) && startsL l s

/-- Python `needle in hay` substring containment. -/
def isSubstr (n : List Char) : List Char → Bool
  | [] => startsL n []
  | s@(_ :: t) => startsL n s || isSubstr n t

/-- Python `str.split('.')[0]`. -/
def untilDot (s : List Char) : List Char := s.takeWhile (fun c => c != '.')

def lowerL (s : List Char) : List Char := s.map Char.toLower

/-- The substring of `s` covered by a span `(i, j)` (Python `m.group()`). -/
def spanGroup (s : List Char) (ij : Nat × Nat) : List Char :=
  (s.drop ij.1).take (ij.2 - ij.1)

/-! ### `_is_email_or_domain_fragment`

Faithful to the source: build a ±30-character context window, test the
token's start position against every email / domain match span, then the
compound-domain heuristic, then the known-site list.  `word` arrives
already lower-cased (the caller lower-cases it), `start`/`stop` are the
token's absolute span in `text`. -/

def isEmailOrDomainFragment (word : List Char) (text : List Char)
    (start stop : Nat) : Bool :=
  let ctx := (text.drop (start - 30)).take (min text.length (stop + 30) - (start - 30))
  let wpos := start - (start - 30)
  let emailHit := [emailPat1, emailPat2].any
    (fun p => overlapsAt (findSpans p ctx) wpos)
  let domainHit := [domainPat1, wwwPat, urlPat].any
    (fun p => overlapsAt (findSpans p ctx) wpos)
  let compoundHit := (findSpans compoundPat ctx).any (fun ij =>
    isSubstr word (lowerL (untilDot (spanGroup ctx ij))) && decide (4 ≤ word.length))
  let siteHit := genealogySites.any (fun site =>
    isSubstr word site && decide (4 ≤ word.length) && isSubstr site (lowerL ctx))
  emailHit || domainHit || compoundHit || siteHit

/-! ### `spell_check_text`

The tokenizer is the source's regex `\b[a-zA-Z]{min_length,}\b` run
through `finditer`; `{m,}` desugars to `m` forced letters followed by a
greedy star. -/

/-- Atom sequence of `\b[a-zA-Z]{m,}\b`. -/
def tokPat (m : Nat) : List Atom :=
  Atom.wb :: (List.replicate m (Atom.one isLetterA) ++ [Atom.star isLetterA, Atom.wb])

/-- Token spans of a text (`re.finditer` of the tokenizer pattern). -/
def tokenSpans (m : Nat) (text : List Char) : List (Nat × Nat) :=
  findSpans (tokPat m) text

/-- The configuration fields consumed by `spell_check_text` (loaded from
the external YAML configuration). -/
structure SCConfig where
  minWordLength : Nat
  checkProperNouns : Bool
  maxSuggestions : Nat
  contextLength : Nat
  deriving DecidableEq

/-- A spelling-error record as built by the source (`timestamp` omitted:
it comes from the external clock).  `word` keeps the original case,
`wordLower` is the lower-cased form used for the dictionary lookup;
`confidence` is the exact rational value of `1.0 - len(word)/20.0`
(exactly representable for the word lengths at issue, e.g. length 10
gives the float 0.5 exactly). -/
structure SpellingError where
  url : String
  word : List Char
  wordLower : List Char
  suggestions : List (List Char)
  context : List Char
  position : Nat
  confidence : ℚ
  deriving DecidableEq

/-- Python `str.strip()`. -/
def trimWS (s : List Char) : List Char :=
  ((s.dropWhile isWsPy).reverse.dropWhile isWsPy).reverse

/-- Does the original surface form start with an upper-case letter
(Python `original_word[0].isupper()`)? -/
def headUpper (s : List Char) : Bool :=
  match s.head? with
  | some c => c.isUpper
  | none => false

/-- `spell_check_text(text, url)`: tokenize, then per token apply the
proper-noun gate, the email/domain fragment filter, and the dictionary
lookup (on the lower-cased token); survivors yield a record.  The
dictionary membership test `known` (base dictionary plus loaded custom
words) and the suggestion generator `cand` are the external
spell-checker library, passed as parameters. -/
def spellCheckText (cfg : SCConfig) (known : List Char → Bool)
    (cand : List Char → List (List Char)) (url : String) (text : List Char) :
    List SpellingError :=
  (tokenSpans cfg.minWordLength text).filterMap (fun ij =>
    let orig := (text.drop ij.1).take (ij.2 - ij.1)
    let w := lowerL orig
    if !cfg.checkProperNouns && (headUpper orig && decide (1 < orig.length)) then
      none
    else if isEmailOrDomainFragment w text ij.1 ij.2 then
      none
    else if known w then
      none
    else
      some { url := url
             word := orig
             wordLower := w
             suggestions := (cand w).take cfg.maxSuggestions
             context := trimWS ((text.drop (ij.1 - cfg.contextLength)).take
               (min text.length (ij.2 + cfg.contextLength) - (ij.1 - cfg.contextLength)))
             position := ij.1
             confidence := 1 - (w.length : ℚ) / 20 })

/-! ### URL classification (`_is_internal_url`, `_is_valid_url`)

`urllib.parse.urlparse` is an external collaborator; it is passed in as
a function producing the parts the source reads.  (The source wraps
both predicates in `try/except`; `urlparse` does not raise on the
strings at issue, so the exception branch is not modelled.) -/

structure URLParts where
  scheme : String
  netloc : String
  path : String
  deriving DecidableEq

/-- `_is_internal_url`: same network location as the base, or no
network location at all. -/
def isInternalUrl (parse : String → URLParts) (url base : String) : Bool :=
  (parse url).netloc == (parse base).netloc || (parse url).netloc == ""

/-- `_is_valid_url`: an `http(s)` scheme and a non-empty host. -/
def isValidUrl (parse : String → URLParts) (url : String) : Bool :=
  ((parse url).scheme == "http" || (parse url).scheme == "https")
    && (parse url).netloc != ""

/-! ### The link checker (`_check_single_link`, `_check_all_links_on_page`) -/

/-- The result of a reachability probe (`requests.get` with
`allow_redirects=True`): the final response after the redirect chain,
or one of the transport faults the source catches. -/
inductive ProbeResult where
  | resp : Nat → String → ProbeResult
  | timeout : ProbeResult
  | connErr : ProbeResult
  | exc : String → ProbeResult

/-- The `status_code` field of a broken-link record: either the integer
HTTP status or one of the string tags `"TIMEOUT"`, `"CONNECTION_ERROR"`,
`"ERROR"`. -/
inductive StatusCode where
  | code : Nat → StatusCode
  | timeoutC : StatusCode
  | connErrC : StatusCode
  | errC : StatusCode
  deriving DecidableEq

/-- A broken-link record (`timestamp` omitted: external clock).
`resourceType` is `none` for the page-level records built by
`process_url`, which carry no `resource_type` key. -/
structure BrokenLink where
  url : String
  statusCode : StatusCode
  reason : String
  foundOn : String
  linkType : String
  resourceType : Option String
  deriving DecidableEq

/-- `_check_single_link(url, found_on_url, link_type)`: classify the
probe outcome; a record is produced exactly for final status `>= 400`,
timeouts, connection failures, and other exceptions (reason truncated
to 100 characters).  `tmo` is the configured external-link timeout. -/
def checkSingleLink (parse : String → URLParts) (probe : String → ProbeResult)
    (tmo : Nat) (url foundOn lt : String) : Option BrokenLink :=
  let cat := if isInternalUrl parse url foundOn then "internal" else "external"
  match probe url with
  | .resp st reason =>
    if 400 ≤ st then
      some ⟨url, .code st, reason, foundOn, cat, some lt⟩
    else none
  | .timeout =>
    some ⟨url, .timeoutC, "Request timeout after " ++ toString tmo ++ " seconds",
          foundOn, cat, some lt⟩
  | .connErr =>
    some ⟨url, .connErrC, "Connection failed", foundOn, cat, some lt⟩
  | .exc msg =>
    some ⟨url, .errC, msg.take 100, foundOn, cat, some lt⟩

/-- The document extensions reclassifying a hyperlink to `document`. -/
def documentExts : List String :=
  [".pdf", ".doc", ".docx", ".xls", ".xlsx", ".ppt", ".pptx", ".zip", ".rar"]

def hasDocExt (path : String) : Bool :=
  documentExts.any (fun e => (lowerL path.data).drop (path.length - e.length) == e.data)

/-- The internal resource kinds that are probed even when internal. -/
def probedKinds : List String := ["image", "document", "css", "javascript", "media"]

/-- One page-processing worker of the run's thread pool, as far as link
checking is concerned: its page URL, the extracted candidates it still
has to process, and its program counter inside the guarded block of
`_check_all_links_on_page`.  `armed = some (absU, lt2)` means the
worker has just evaluated the membership test
`absolute_url not in self.external_links_checked` (source line 542) and
passed it, but has not yet executed the `add` and probe of lines
543-544 — the statement boundary at which the interpreter may switch
threads, because the plain-set test and the insert are separate
statements with no lock around them. -/
structure RaceWorker where
  source : String
  pending : List (String × String)
  armed : Option (String × String)

/-- The run's shared link-checking state: the plain dedup set
`external_links_checked`, the broken-link list, the trace of URLs
actually probed, and the pool workers. -/
structure RaceState where
  workers : List RaceWorker
  checked : List String
  broken : List BrokenLink
  probes : List String

/-- One scheduler step of worker `i` inside `_check_all_links_on_page`
(source lines 519-544).  An unarmed worker takes its next candidate
`(href, kind)` through lines 519-542: resolve against its page URL
(`join` is `urllib.parse.urljoin`), reclassify document hyperlinks by
extension, apply the validity and probe-worthiness gates, then the
membership test against the shared set; it becomes armed when the test
passes.  An armed worker executes lines 543-544: insert into the shared
set, probe, and append the record when the probe failed.  Thread-local
work is folded into the test step and the insert/probe pair into one
step; folding statements together only removes interleavings, so every
behaviour of this model is a behaviour of the program.  Candidate
extraction from the markup (BeautifulSoup) is the external Resource
Extractor, so each worker's candidate list is given. -/
def raceStep (parse : String → URLParts) (join : String → String → String)
    (probe : String → ProbeResult) (tmo : Nat) (st : RaceState) (i : Nat) : RaceState :=
  match st.workers[i]? with
  | none => st
  | some w =>
    match w.armed with
    | some (absU, lt2) =>
      { st with
        workers := st.workers.set i { w with armed := none }
        checked := absU :: st.checked
        broken := st.broken ++ (checkSingleLink parse probe tmo absU w.source lt2).toList
        probes := st.probes ++ [absU] }
    | none =>
      match w.pending with
      | [] => st
      | (u, lt) :: rest =>
        let absU := join w.source u
        let lt2 := if lt == "hyperlink" && hasDocExt (parse absU).path then "document" else lt
        let pass :=
          if isValidUrl parse absU then
            (!isInternalUrl parse absU w.source || decide (lt2 ∈ probedKinds))
              && decide (absU ∉ st.checked)
          else false
        let w2 : RaceWorker :=
          { w with pending := rest, armed := if pass then some (absU, lt2) else none }
        { st with workers := st.workers.set i w2 }

/-- Run the pool workers under a given interleaving of the scheduler. -/
def raceRun (parse : String → URLParts) (join : String → String → String)
    (probe : String → ProbeResult) (tmo : Nat) (sched : List Nat)
    (st : RaceState) : RaceState :=
  sched.foldl (raceStep parse join probe tmo) st

/-- URL parts of the concrete URLs of the racing run (the external
`urllib.parse.urlparse`). -/
def raceParse : String → URLParts := fun s =>
  if s == "http://ext/r" then ⟨"http", "ext", "/r"⟩
  else if s == "http://site/p1" then ⟨"http", "site", "/p1"⟩
  else if s == "http://site/p2" then ⟨"http", "site", "/p2"⟩
  else ⟨"", "", ""⟩

/-- Two pool workers, each processing a page that references the same
external hyperlink, starting from the empty run-wide dedup set. -/
def raceInit : RaceState :=
  { workers := [⟨"http://site/p1", [("http://ext/r", "hyperlink")], none⟩,
                ⟨"http://site/p2", [("http://ext/r", "hyperlink")], none⟩]
    checked := []
    broken := []
    probes := [] }

/-! ### The per-page coordinator (`process_url`) -/

/-- Run statistics (`self.stats`, a defaultdict of counters). -/
structure Stats where
  pagesProcessed : Nat
  pagesFailed : Nat
  wordsChecked : Nat
  errorsFound : Nat
  deriving DecidableEq

/-- The shared state `process_url` mutates: the broken-link list and
the counters. -/
structure ProcState where
  broken : List BrokenLink
  stats : Stats
  deriving DecidableEq

/-- The outcome of the page fetch `self.session.get(url, timeout=30)`:
a response (with its status and body), or one of the exception classes
the source catches. -/
inductive Fetch where
  | ok : Nat → String → String → Fetch
  | timeout : Fetch
  | connError : Fetch
  | reqExc : Fetch
  | otherExc : Fetch

/-- Atom sequence of `\b\w+\b` (the word counter regex). -/
def wordRunPat : List Atom :=
  [Atom.wb, Atom.one isWordChar, Atom.star isWordChar, Atom.wb]

/-- `len(re.findall(r'\b\w+\b', text))`. -/
def wordCount (text : List Char) : Nat := (findSpans wordRunPat text).length

/-- `process_url(url)`: fetch the page; on HTTP 200 run link checking
(when enabled, appending the records `_check_all_links_on_page` would
produce, supplied as `linkRecs`) and spell checking (when enabled) on
the extracted text (`extract` is the external `extract_text`); a 200
page with empty extracted text counts as failed.  On a non-200 status,
append a page-level broken-link record tagged `found_on = "Sitemap
discovery"` (when link checking is enabled) and count the page failed.
On any caught exception, only count the page failed.  Returns the
page's spelling findings and the updated shared state. -/
def processUrl (cfg : SCConfig) (known : List Char → Bool)
    (cand : List Char → List (List Char)) (extract : String → List Char)
    (enableSpell enableLink checkExt : Bool) (linkRecs : List BrokenLink)
    (url : String) (fetch : Fetch) (st : ProcState) :
    List SpellingError × ProcState :=
  match fetch with
  | .ok status reason body =>
    if status = 200 then
      let st1 := if enableLink && checkExt then
        { st with broken := st.broken ++ linkRecs } else st
      if enableSpell then
        let text := extract body
        if trimWS text ≠ [] then
          let errors := spellCheckText cfg known cand url text
          let st2 := { st1 with stats :=
            { st1.stats with
              wordsChecked := st1.stats.wordsChecked + wordCount text
              errorsFound := st1.stats.errorsFound + errors.length } }
          (errors, { st2 with stats :=
            { st2.stats with pagesProcessed := st2.stats.pagesProcessed + 1 } })
        else
          ([], { st1 with stats :=
            { st1.stats with pagesFailed := st1.stats.pagesFailed + 1 } })
      else
        ([], { st1 with stats :=
          { st1.stats with pagesProcessed := st1.stats.pagesProcessed + 1 } })
    else
      let st1 := if enableLink then
        { st with broken := st.broken ++
          [⟨url, .code status, reason, "Sitemap discovery", "internal", none⟩] }
        else st
      ([], { st1 with stats :=
        { st1.stats with pagesFailed := st1.stats.pagesFailed + 1 } })
  | _ =>
    ([], { st with stats := { st.stats with pagesFailed := st.stats.pagesFailed + 1 } })

/-! ### The sitemap resolver (`_parse_sitemap`)

A fetched sitemap document either lists sub-sitemaps (a sitemap index)
or page locations (a urlset); the external fetch-and-parse step is the
function `fetch` (`none` models a non-200 response or a raised
exception, whose branch contributes no URLs).  The source's recursion
over sub-sitemaps with the shared, accumulating `visited_sitemaps` set
is rendered as a depth-first worklist: the sub-sitemaps of the current
document are processed (in order) before the remaining worklist, and a
URL already in `visited` is skipped exactly like the source's
`not in visited_sitemaps` guards.  `univ` is the finite universe of
sitemap URLs of the graph (the Python recursion terminates exactly when
the reachable sitemap set is finite); URLs outside it are skipped, a
branch never taken when `univ` covers the graph.  The function is total
— resolution terminates on every graph, cyclic ones included — because
each fetch permanently shrinks the unvisited universe.  `fetched` is
the trace of sitemap URLs actually fetched. -/

structure SitemapDoc where
  subSitemaps : List String
  pageUrls : List String

structure SitemapResult where
  pageUrls : List String
  visited : List String
  fetched : List String

/-- Set-style union (the source accumulates page URLs in a `set`). -/
def unionS (a b : List String) : List String :=
  b.foldl (fun acc u => if u ∈ acc then acc else acc ++ [u]) a

def notVisLen (univ vis : List String) : Nat :=
  (univ.filter (fun u => decide (u ∉ vis))).length

theorem notVisLen_cons_lt {univ vis : List String} {u : String}
    (hu : u ∈ univ) (hv : u ∉ vis) : notVisLen univ (u :: vis) < notVisLen univ vis := by
  unfold notVisLen
  have hsub : List.Sublist (univ.filter (fun x => decide (x ∉ u :: vis)))
      (univ.filter (fun x => decide (x ∉ vis))) := by
    apply List.monotone_filter_right
    intro a ha
    simp only [decide_eq_true_eq, List.mem_cons, not_or] at ha ⊢
    exact ha.2
  rcases lt_or_eq_of_le hsub.length_le with h | h
  · exact h
  · exfalso
    have heq := hsub.eq_of_length h
    have hmem : u ∈ univ.filter (fun x => decide (x ∉ vis)) := by
      simp [List.mem_filter, hu, hv]
    rw [← heq] at hmem
    simp [List.mem_filter] at hmem

def parseSitemaps (fetch : String → Option SitemapDoc) (univ : List String) :
    List String → List String → SitemapResult
  | [], vis => ⟨[], vis, []⟩
  | u :: rest, vis =>
    if u ∈ vis then
      parseSitemaps fetch univ rest vis
    else if hu : u ∈ univ then
      match fetch u with
      | none =>
        let r := parseSitemaps fetch univ rest (u :: vis)
        ⟨r.pageUrls, r.visited, u :: r.fetched⟩
      | some doc =>
        let r := parseSitemaps fetch univ (doc.subSitemaps ++ rest) (u :: vis)
        ⟨unionS r.pageUrls doc.pageUrls, r.visited, u :: r.fetched⟩
    else
      parseSitemaps fetch univ rest vis
  termination_by wl vis => (notVisLen univ vis, wl.length)
  decreasing_by
  · apply Prod.Lex.right
    simp
  · exact Prod.Lex.left _ _ (notVisLen_cons_lt hu (by assumption))
  · exact Prod.Lex.left _ _ (notVisLen_cons_lt hu (by assumption))
  · apply Prod.Lex.right
    simp

/-! ### The crawl frontier (`_recursive_crawl`)

A breadth-first loop over a FIFO queue of `(url, depth)` pairs with a
visited set and the discovered-URL set, stopping when the queue is
empty or `max_pages` URLs are collected.  The page fetch is external
(`CrawlFetch.ok links` carries the extracted `href` values of a 200
response; `httpFail` a non-200 response; `exc` a raised request
exception).  `fuel` counts loop iterations; the claims about this loop
are invariants that hold after any number of iterations.  `expandedAt`
traces the pages whose links were extracted (with their depth) and
`enqueuedL` the enqueue events, so the bounded-expansion and gating
invariants can be stated. -/

inductive CrawlFetch where
  | ok : List String → CrawlFetch
  | httpFail : CrawlFetch
  | exc : CrawlFetch

structure CrawlState where
  queue : List (String × Nat)
  visited : List String
  urls : List String
  expandedAt : List (String × Nat)
  enqueuedL : List (String × Nat)

/-- `href.startswith(('mailto:', 'javascript:', 'tel:', '#'))`. -/
def skipHref (h : String) : Bool :=
  h.startsWith "mailto:" || h.startsWith "javascript:" || h.startsWith "tel:"
    || h.startsWith "#"

/-- The links a 200 page at `u` contributes to the queue: drop
non-navigable schemes, resolve against the page URL, keep those both
internal to the seed and valid. -/
def crawlLinks (parse : String → URLParts) (join : String → String → String)
    (base u : String) (links : List String) : List String :=
  ((links.filter (fun h => !skipHref h)).map (fun h => join u h)).filter
    (fun a => isInternalUrl parse a base && isValidUrl parse a)

def recursiveCrawl (fetch : String → CrawlFetch) (parse : String → URLParts)
    (join : String → String → String) (base : String) (maxDepth maxPages : Nat) :
    Nat → CrawlState → CrawlState
  | 0, st => st
  | fuel + 1, st =>
    if st.urls.length < maxPages then
      match st.queue with
      | [] => st
      | (u, d) :: rest =>
        if u ∈ st.visited || maxDepth < d then
          recursiveCrawl fetch parse join base maxDepth maxPages fuel
            { st with queue := rest }
        else
          match fetch u with
          | .ok links =>
            if d < maxDepth then
              recursiveCrawl fetch parse join base maxDepth maxPages fuel
                { queue := rest ++ (crawlLinks parse join base u links).map (fun a => (a, d + 1))
                  visited := u :: st.visited
                  urls := if u ∈ st.urls then st.urls else st.urls ++ [u]
                  expandedAt := st.expandedAt ++ [(u, d)]
                  enqueuedL := st.enqueuedL ++
                    (crawlLinks parse join base u links).map (fun a => (a, d + 1)) }
            else
              recursiveCrawl fetch parse join base maxDepth maxPages fuel
                { st with
                  queue := rest
                  visited := u :: st.visited
                  urls := if u ∈ st.urls then st.urls else st.urls ++ [u] }
          | .httpFail =>
            recursiveCrawl fetch parse join base maxDepth maxPages fuel
              { st with queue := rest, visited := u :: st.visited }
          | .exc =>
            recursiveCrawl fetch parse join base maxDepth maxPages fuel
              { st with queue := rest, visited := u :: st.visited }
    else st

/-- The initial crawl state: the seed at depth 0. -/
def crawlInit (base : String) : CrawlState := ⟨[(base, 0)], [], [], [], []⟩

/-! ### The URL filter (`_filter_urls`, `_match_pattern`)

`_match_pattern` lowers both sides and calls `fnmatch.fnmatch`; the
patterns at issue use the glob wildcards `*` and `?` (character classes
`[...]` are not used by the source's configuration examples and are not
modelled).  The matcher is the standard backtracking glob with fuel for
structural recursion (one unit per step; each step discards a pattern
or text character, so `|pattern| + |text| + 1` never runs out). -/

def globF : Nat → List Char → List Char → Bool
  | 0, _, _ => false
  | _ + 1, [], [] => true
  | _ + 1, [], _ :: _ => false
  | fuel + 1, '*' :: ps, t =>
    globF fuel ps t ||
      (match t with
       | [] => false
       | _ :: t2 => globF fuel ('*' :: ps) t2)
  | fuel + 1, '?' :: ps, t =>
    (match t with
     | [] => false
     | _ :: t2 => globF fuel ps t2)
  | fuel + 1, c :: ps, t =>
    (match t with
     | [] => false
     | d :: t2 => c == d && globF fuel ps t2)

/-- `_match_pattern(text, pattern)`: case-insensitive glob match
(`fnmatch.fnmatch(text.lower(), pattern.lower())`). -/
def matchPattern (text pat : String) : Bool :=
  globF (pat.data.length + text.data.length + 1) (lowerL pat.data) (lowerL text.data)

/-- `_filter_urls(urls)`: drop URLs matching any exclude pattern; keep
the rest when the include list is empty or some include pattern
matches. -/
def filterUrls (includeP excludeP : List String) (urls : List String) : List String :=
  urls.filter (fun u =>
    !(excludeP.any (fun p => matchPattern u p))
      && (includeP.isEmpty || includeP.any (fun p => matchPattern u p)))

/-! ### Shared concrete instances for witnesses -/

def cfg0 : SCConfig := ⟨3, true, 3, 20⟩

def known0 : List Char → Bool := fun _ => false

def cand0 : List Char → List (List Char) := fun _ => []

def extract0 : String → List Char := fun _ => []

def stats0 : Stats := ⟨0, 0, 0, 0⟩

/-! ## Theorems -/

/-- C1 counterexample: with link checking enabled, a page fetch that
raises a timeout increments `pages_failed` and returns no findings but
appends NO broken-link record at all — the `except` branches of
`process_url` never touch `self.broken_links` — refuting the claim that
every transport-exception failure contributes a record tagged
`found_on = "Sitemap discovery"`. -/
theorem C1_counterexample :
    processUrl cfg0 known0 cand0 extract0 true true true [] "https://x.com/p"
        Fetch.timeout ⟨[], stats0⟩ =
      ([], ⟨[], ⟨0, 1, 0, 0⟩⟩) := rfl

/-- C1 (amended): a page fetch returning a non-200 status appends, when
link checking is enabled, a broken-link record tagged
`found_on = "Sitemap discovery"`, increments `pages_failed`, and yields
no findings; a fetch raising a transport exception (timeout, connection
error, request exception, or any other exception) increments
`pages_failed` and yields no findings but appends no broken-link
record. -/
theorem C1_amended_fetch_failure :
    ∀ (cfg : SCConfig) (known : List Char → Bool) (cand : List Char → List (List Char))
      (extract : String → List Char) (eS cExt : Bool) (linkRecs : List BrokenLink)
      (url : String) (st : ProcState),
      (∀ status reason body, status ≠ 200 →
        processUrl cfg known cand extract eS true cExt linkRecs url
            (.ok status reason body) st =
          ([], { broken := st.broken ++
                   [⟨url, .code status, reason, "Sitemap discovery", "internal", none⟩]
                 stats := { st.stats with pagesFailed := st.stats.pagesFailed + 1 } }))
      ∧ (∀ f : Fetch,
          (f = .timeout ∨ f = .connError ∨ f = .reqExc ∨ f = .otherExc) →
          ∀ eL : Bool,
            processUrl cfg known cand extract eS eL cExt linkRecs url f st =
              ([], { st with stats :=
                { st.stats with pagesFailed := st.stats.pagesFailed + 1 } })) := by
  intro cfg known cand extract eS cExt linkRecs url st
  constructor
  · intro status reason body hne
    simp [processUrl, hne]
  · rintro f (rfl | rfl | rfl | rfl) eL <;> rfl

/-- C1 witness: the amended theorem applied to a concrete 404 page and
a concrete connection error. -/
theorem C1_witness :
    processUrl cfg0 known0 cand0 extract0 true true true [] "u"
        (.ok 404 "Not Found" "") ⟨[], stats0⟩ =
      ([], ⟨[⟨"u", .code 404, "Not Found", "Sitemap discovery", "internal", none⟩],
            ⟨0, 1, 0, 0⟩⟩) ∧
    processUrl cfg0 known0 cand0 extract0 true true true [] "u"
        Fetch.connError ⟨[], stats0⟩ =
      ([], ⟨[], ⟨0, 1, 0, 0⟩⟩) := by
  constructor
  · have h := (C1_amended_fetch_failure cfg0 known0 cand0 extract0 true true [] "u"
        ⟨[], stats0⟩).1 404 "Not Found" "" (by decide)
    rw [h]
    rfl
  · have h := (C1_amended_fetch_failure cfg0 known0 cand0 extract0 true true [] "u"
        ⟨[], stats0⟩).2 .connError (by simp) true
    rw [h]
    rfl

/-- C10: a page fetched with HTTP 200 whose extracted text is empty or
whitespace-only (spell checking enabled) increments `pages_failed`,
leaves `pages_processed` unchanged, returns no findings, and appends no
page-level broken-link record: the broken-link list is extended only by
the resource records of the page's link checking (when enabled), never
by a `"Sitemap discovery"`-tagged record for the page itself. -/
theorem C10_empty_text_page_failed :
    ∀ (cfg : SCConfig) (known : List Char → Bool) (cand : List Char → List (List Char))
      (extract : String → List Char) (eL cExt : Bool) (linkRecs : List BrokenLink)
      (url reason body : String) (st : ProcState),
      trimWS (extract body) = [] →
      processUrl cfg known cand extract true eL cExt linkRecs url
          (.ok 200 reason body) st =
        ([], { broken := st.broken ++ (if eL && cExt then linkRecs else [])
               stats := { st.stats with pagesFailed := st.stats.pagesFailed + 1 } }) := by
  intro cfg known cand extract eL cExt linkRecs url reason body st hempty
  simp only [processUrl, if_pos rfl, if_pos, hempty, ite_not]
  cases h : eL && cExt <;> simp [h, hempty]

/-- C10 witness: the theorem applied to a concrete empty-extraction
page with link checking enabled. -/
theorem C10_witness :
    processUrl cfg0 known0 cand0 extract0 true true true [] "u"
        (.ok 200 "OK" "<div></div>") ⟨[], stats0⟩ =
      ([], ⟨[], ⟨0, 1, 0, 0⟩⟩) := by
  have h := C10_empty_text_page_failed cfg0 known0 cand0 extract0 true true []
    "u" "OK" "<div></div>" ⟨[], stats0⟩ (by decide)
  rw [h]
  rfl

/-- C7: the probe-outcome taxonomy of `_check_single_link`: a final
status `>= 400` yields a record carrying that integer status; a status
below 400 yields no record; a timeout yields the `TIMEOUT` tag; a
connection failure the `CONNECTION_ERROR` tag; any other exception the
`ERROR` tag with the reason truncated to 100 characters; and the 404
and TIMEOUT outcomes are distinguishable (distinct `statusCode`
values). -/
theorem C7_probe_taxonomy :
    ∀ (parse : String → URLParts) (probe : String → ProbeResult) (tmo : Nat)
      (url foundOn lt : String),
      (∀ stc reason, probe url = .resp stc reason → 400 ≤ stc →
        checkSingleLink parse probe tmo url foundOn lt =
          some ⟨url, .code stc, reason, foundOn,
            if isInternalUrl parse url foundOn then "internal" else "external",
            some lt⟩)
      ∧ (∀ stc reason, probe url = .resp stc reason → stc < 400 →
          checkSingleLink parse probe tmo url foundOn lt = none)
      ∧ (probe url = .timeout →
          checkSingleLink parse probe tmo url foundOn lt =
            some ⟨url, .timeoutC,
              "Request timeout after " ++ toString tmo ++ " seconds", foundOn,
              if isInternalUrl parse url foundOn then "internal" else "external",
              some lt⟩)
      ∧ (probe url = .connErr →
          checkSingleLink parse probe tmo url foundOn lt =
            some ⟨url, .connErrC, "Connection failed", foundOn,
              if isInternalUrl parse url foundOn then "internal" else "external",
              some lt⟩)
      ∧ (∀ msg, probe url = .exc msg →
          checkSingleLink parse probe tmo url foundOn lt =
            some ⟨url, .errC, msg.take 100, foundOn,
              if isInternalUrl parse url foundOn then "internal" else "external",
              some lt⟩)
      ∧ StatusCode.code 404 ≠ StatusCode.timeoutC := by
  intro parse probe tmo url foundOn lt
  refine ⟨?_, ?_, ?_, ?_, ?_, by simp⟩
  · intro stc reason hp h4
    simp only [checkSingleLink, hp, if_pos h4]
  · intro stc reason hp h4
    simp only [checkSingleLink, hp, if_neg (by omega : ¬ 400 ≤ stc)]
  · intro hp
    simp only [checkSingleLink, hp]
  · intro hp
    simp only [checkSingleLink, hp]
  · intro msg hp
    simp only [checkSingleLink, hp]

/-- C7 witness: the theorem applied to a concrete 404 probe and a
concrete timeout probe. -/
theorem C7_witness :
    checkSingleLink (fun _ => ⟨"http", "h", "/"⟩) (fun _ => .resp 404 "Not Found")
        5 "u" "f" "hyperlink" =
      some ⟨"u", .code 404, "Not Found", "f", "internal", some "hyperlink"⟩ ∧
    checkSingleLink (fun _ => ⟨"http", "h", "/"⟩) (fun _ => .timeout)
        5 "u" "f" "image" =
      some ⟨"u", .timeoutC, "Request timeout after 5 seconds", "f", "internal",
        some "image"⟩ := by
  constructor
  · have h := (C7_probe_taxonomy (fun _ => ⟨"http", "h", "/"⟩)
      (fun _ => .resp 404 "Not Found") 5 "u" "f" "hyperlink").1 404 "Not Found"
      rfl (by omega)
    rw [h]
    rfl
  · have h := (C7_probe_taxonomy (fun _ => ⟨"http", "h", "/"⟩)
      (fun _ => .timeout) 5 "u" "f" "image").2.2.1 rfl
    rw [h]
    rfl

/-- C9: every emitted spelling finding carries confidence exactly
`1 - len(word)/20` (as an exact rational; for the word lengths at issue
the Python float arithmetic is exact), and in particular a length-10
word has confidence exactly 1/2. -/
theorem C9_confidence_formula :
    ∀ (cfg : SCConfig) (known : List Char → Bool) (cand : List Char → List (List Char))
      (url : String) (text : List Char) (e : SpellingError),
      e ∈ spellCheckText cfg known cand url text →
      e.confidence = 1 - (e.word.length : ℚ) / 20 ∧
        (e.word.length = 10 → e.confidence = 1 / 2) := by
  intro cfg known cand url text e he
  obtain ⟨ij, _, hf⟩ := List.mem_filterMap.mp he
  simp only at hf
  split at hf
  · exact absurd hf (by simp)
  · split at hf
    · exact absurd hf (by simp)
    · split at hf
      · exact absurd hf (by simp)
      · obtain rfl := Option.some.inj hf
        simp only [lowerL, List.length_map]
        exact ⟨by norm_num, fun h10 => by rw [h10]; norm_num⟩

/-- C9 witness: a concrete length-10 finding with confidence exactly
1/2, obtained by the theorem. -/
theorem C9_witness :
    ∃ e ∈ spellCheckText cfg0 known0 cand0 "u" "zzzzzzzzzz".data,
      e.word.length = 10 ∧ e.confidence = 1 / 2 := by
  have hm : (⟨"u", "zzzzzzzzzz".data, "zzzzzzzzzz".data, [], "zzzzzzzzzz".data, 0,
      1 - (((10 : ℕ) : ℚ)) / 20⟩ : SpellingError) ∈
      spellCheckText cfg0 known0 cand0 "u" "zzzzzzzzzz".data := by
    have h : spellCheckText cfg0 known0 cand0 "u" "zzzzzzzzzz".data =
        [⟨"u", "zzzzzzzzzz".data, "zzzzzzzzzz".data, [], "zzzzzzzzzz".data, 0,
          1 - (((10 : ℕ) : ℚ)) / 20⟩] := rfl
    rw [h]
    exact List.mem_singleton_self _
  exact ⟨_, hm, by decide,
    (C9_confidence_formula cfg0 known0 cand0 "u" "zzzzzzzzzz".data _ hm).2 (by decide)⟩

/-- C6: URL filtering semantics — a URL survives iff it matches no
exclude pattern and (the include list is empty or it matches some
include pattern), so exclusion wins over inclusion; matching is
case-insensitive (it depends only on the lower-cased text and pattern);
and the spec's concrete example — a URL matching both an include and an
exclude pattern — is excluded. -/
theorem C6_url_filtering :
    (∀ (urls inc exc : List String) (u : String),
      u ∈ filterUrls inc exc urls ↔
        u ∈ urls ∧ (exc.any (fun p => matchPattern u p)) = false ∧
          (inc = [] ∨ (inc.any (fun p => matchPattern u p)) = true))
    ∧ (∀ t₁ t₂ p₁ p₂ : String, lowerL t₁.data = lowerL t₂.data →
        lowerL p₁.data = lowerL p₂.data →
        matchPattern t₁ p₁ = matchPattern t₂ p₂)
    ∧ filterUrls ["*/blog/*"] ["*/draft/*"] ["https://x.com/blog/draft/post"] = [] := by
  refine ⟨?_, ?_, by decide⟩
  · intro urls inc exc u
    simp [filterUrls, List.mem_filter, List.isEmpty_iff]
  · intro t₁ t₂ p₁ p₂ ht hp
    have hlt : t₁.data.length = t₂.data.length := by
      have := congrArg List.length ht
      simpa [lowerL] using this
    have hlp : p₁.data.length = p₂.data.length := by
      have := congrArg List.length hp
      simpa [lowerL] using this
    simp only [matchPattern, ht, hp, hlt, hlp]

/-- C6 witness: case-insensitivity applied at concrete case variants. -/
theorem C6_witness :
    matchPattern "HTTPS://X.com/A" "https*" = matchPattern "https://x.COM/a" "HTTPS*" := by
  exact (C6_url_filtering.2.1 "HTTPS://X.com/A" "https://x.COM/a" "https*" "HTTPS*"
    (by decide) (by decide))

/-- A token whose span is produced by the tokenizer and which passes
the proper-noun gate, the fragment filter, and the dictionary lookup
yields a finding whose `word` is the token's surface form. -/
theorem spellCheckText_emits (cfg : SCConfig) (known : List Char → Bool)
    (cand : List Char → List (List Char)) (url : String) (text : List Char)
    (i j : Nat) (hmem : (i, j) ∈ tokenSpans cfg.minWordLength text)
    (hgate : (!cfg.checkProperNouns && (headUpper ((text.drop i).take (j - i)) &&
      decide (1 < ((text.drop i).take (j - i)).length))) = false)
    (hfrag : isEmailOrDomainFragment (lowerL ((text.drop i).take (j - i))) text i j = false)
    (hdict : known (lowerL ((text.drop i).take (j - i))) = false) :
    ∃ e ∈ spellCheckText cfg known cand url text,
      e.word = (text.drop i).take (j - i) := by
  refine ⟨{ url := url
            word := (text.drop i).take (j - i)
            wordLower := lowerL ((text.drop i).take (j - i))
            suggestions := (cand (lowerL ((text.drop i).take (j - i)))).take cfg.maxSuggestions
            context := trimWS ((text.drop (i - cfg.contextLength)).take
              (min text.length (j + cfg.contextLength) - (i - cfg.contextLength)))
            position := i
            confidence := 1 - ((lowerL ((text.drop i).take (j - i))).length : ℚ) / 20 },
    List.mem_filterMap.mpr ⟨(i, j), hmem, ?_⟩, rfl⟩
  simp only [hgate, hfrag, hdict, Bool.false_eq_true, if_false]

/-- C3: the spec's literal filter cases: `"info"` in
`"Contact us at info@example.org"` is filtered (email local part);
`"techcompany"` in `"Visit www.techcompany.com for details"` is
filtered (domain fragment); `"marketplace"` in
`"Also marketplace.net has products"` is filtered; `"mispelling"` in
`"Another mispelling here should be flagged"` is NOT filtered, and for
every dictionary not containing `"mispelling"` (and every suggestion
generator) `spell_check_text` emits a finding whose word is
`"mispelling"` for that text. -/
theorem C3_email_domain_filter_literals :
    isEmailOrDomainFragment "info".data "Contact us at info@example.org".data 14 18 = true
    ∧ isEmailOrDomainFragment "techcompany".data
        "Visit www.techcompany.com for details".data 10 21 = true
    ∧ isEmailOrDomainFragment "marketplace".data
        "Also marketplace.net has products".data 5 16 = true
    ∧ isEmailOrDomainFragment "mispelling".data
        "Another mispelling here should be flagged".data 8 18 = false
    ∧ (∀ (known : List Char → Bool) (cand : List Char → List (List Char)),
        known "mispelling".data = false →
        ∃ e ∈ spellCheckText cfg0 known cand "u"
            "Another mispelling here should be flagged".data,
          e.word = "mispelling".data) := by
  refine ⟨by decide, by decide, by decide, by decide, ?_⟩
  intro known cand hk
  have hw : lowerL (("Another mispelling here should be flagged".data.drop 8).take (18 - 8))
      = "mispelling".data := by decide
  have hk' : known (lowerL (("Another mispelling here should be flagged".data.drop 8).take
      (18 - 8))) = false := by rw [hw]; exact hk
  obtain ⟨e, he, hword⟩ := spellCheckText_emits cfg0 known cand "u"
    "Another mispelling here should be flagged".data
    8 18 (by decide) (by decide) (by decide) hk'
  exact ⟨e, he, hword.trans (by decide)⟩

/-- C3 witness: the emission part applied to a concrete dictionary that
does not contain `"mispelling"`. -/
theorem C3_witness :
    ∃ e ∈ spellCheckText cfg0 known0 cand0 "u"
        "Another mispelling here should be flagged".data,
      e.word = "mispelling".data :=
  C3_email_domain_filter_literals.2.2.2.2 known0 cand0 rfl

/-! ### C2: run-wide link dedup under the thread pool -/

/-- C2: code bug.  The run-wide dedup guard of
`_check_all_links_on_page` is a plain-set membership test (source line
542) followed by a separate `add` (line 543), and the pages of a run
are processed concurrently by a thread pool (lines 726-728) with no
lock around the test-and-insert.  Two workers whose pages both
reference the same external URL can both pass the membership test
before either inserts: under the scheduler interleaving
test / test / insert-and-probe / insert-and-probe, the URL
`http://ext/r` (external to both pages, probe answering 404) is probed
twice and two broken-link records for it are appended — violating the
claimed at-most-once invariant for a run with N = 2 pages.  Under the
serialized interleaving of the same two workers (first worker finishes
its candidate before the second starts) the same run probes the URL
exactly once, so the double probe is precisely the race, not a flaw of
the guard's sequential logic. -/
theorem C2_unsynchronized_double_probe :
    ((raceRun raceParse (fun _ u => u) (fun _ => ProbeResult.resp 404 "Not Found") 5
        [0, 1, 0, 1] raceInit).probes.count "http://ext/r" = 2
      ∧ ((raceRun raceParse (fun _ u => u) (fun _ => ProbeResult.resp 404 "Not Found") 5
          [0, 1, 0, 1] raceInit).broken.filter
            (fun b => b.url == "http://ext/r")).length = 2)
    ∧ (raceRun raceParse (fun _ u => u) (fun _ => ProbeResult.resp 404 "Not Found") 5
        [0, 0, 1, 1] raceInit).probes.count "http://ext/r" = 1 := by
  decide

/-! ### C5: crawl bounds -/

/-- The crawl-loop invariants: the discovered-URL set never exceeds
`maxPages`; every expanded page had depth strictly below `maxDepth`;
every enqueued URL passed the internal and validity gates. -/
theorem recursiveCrawl_inv (fetch : String → CrawlFetch) (parse : String → URLParts)
    (join : String → String → String) (base : String) (maxD maxP : Nat) :
    ∀ (fuel : Nat) (st : CrawlState),
      st.urls.length ≤ maxP →
      (∀ p ∈ st.expandedAt, p.2 < maxD) →
      (∀ p ∈ st.enqueuedL, (isInternalUrl parse p.1 base && isValidUrl parse p.1) = true) →
      (recursiveCrawl fetch parse join base maxD maxP fuel st).urls.length ≤ maxP
      ∧ (∀ p ∈ (recursiveCrawl fetch parse join base maxD maxP fuel st).expandedAt,
          p.2 < maxD)
      ∧ (∀ p ∈ (recursiveCrawl fetch parse join base maxD maxP fuel st).enqueuedL,
          (isInternalUrl parse p.1 base && isValidUrl parse p.1) = true) := by
  intro fuel
  induction fuel with
  | zero => exact fun st h1 h2 h3 => ⟨h1, h2, h3⟩
  | succ fuel ih =>
    intro st h1 h2 h3
    by_cases hlt : st.urls.length < maxP
    · rcases hq : st.queue with _ | ⟨⟨u, d⟩, rest⟩
      · rw [recursiveCrawl]
        simp only [hq, if_pos hlt]
        exact ⟨h1, h2, h3⟩
      · have hurls : (if u ∈ st.urls then st.urls else st.urls ++ [u]).length ≤ maxP := by
          split
          · exact h1
          · simp only [List.length_append, List.length_singleton]
            omega
        by_cases hvd : (u ∈ st.visited || maxD < d : Bool) = true
        · rw [recursiveCrawl]
          simp only [hq, if_pos hlt, hvd, if_true]
          exact ih _ h1 h2 h3
        · cases hf : fetch u with
          | httpFail =>
            rw [recursiveCrawl]
            simp only [hq, if_pos hlt, hvd, if_false, Bool.false_eq_true, hf]
            exact ih _ h1 h2 h3
          | exc =>
            rw [recursiveCrawl]
            simp only [hq, if_pos hlt, hvd, if_false, Bool.false_eq_true, hf]
            exact ih _ h1 h2 h3
          | ok links =>
            by_cases hd : d < maxD
            · rw [recursiveCrawl]
              simp only [hq, if_pos hlt, hvd, if_false, Bool.false_eq_true, hf, if_pos hd]
              apply ih
              · exact hurls
              · intro p hp
                simp only [List.mem_append, List.mem_singleton] at hp
                rcases hp with hp | rfl
                · exact h2 p hp
                · exact hd
              · intro p hp
                rcases List.mem_append.mp hp with hp | hp
                · exact h3 p hp
                · obtain ⟨a, ha, rfl⟩ := List.mem_map.mp hp
                  exact (List.mem_filter.mp ha).2
            · rw [recursiveCrawl]
              simp only [hq, if_pos hlt, hvd, if_false, Bool.false_eq_true, hf, if_neg hd]
              exact ih _ hurls h2 h3
    · rw [recursiveCrawl]
      simp only [if_neg hlt]
      exact ⟨h1, h2, h3⟩

/-! ### C8: characterization of the tokenizer

The claim says the tokens are exactly the maximal runs of ASCII letters
of length at least the configured minimum.  That is refuted by a run
adjacent to a digit or underscore (`\b` fails there), and the corrected
characterization is proved: the token spans are exactly the maximal
letter runs of sufficient length whose neighbouring characters are not
word characters. -/

/-- Length of the maximal prefix of `s` satisfying `p`. -/
def leadCount (p : Char → Bool) : List Char → Nat
  | [] => 0
  | c :: t => if p c then leadCount p t + 1 else 0

/-- The character of `s` at index `i`, if any. -/
def charAt (s : List Char) (i : Nat) : Option Char := (s.drop i).head?

/-- The character preceding index `i`, with `prev` standing before
index 0. -/
def prevAt (prev : Option Char) (s : List Char) (i : Nat) : Option Char :=
  if i = 0 then prev else charAt s (i - 1)

/-- The length of the letter run starting at index `i`. -/
def runLen (s : List Char) (i : Nat) : Nat := leadCount isLetterA (s.drop i)

/-- The spec's token spans as literally claimed: maximal runs of ASCII
letters of length at least `m` (maximality against letters only). -/
def claimSpans (m : Nat) (text : List Char) : List (Nat × Nat) :=
  (List.range (text.length + 1)).filterMap (fun i =>
    if (!(prevAt none text i).any isLetterA && decide (m ≤ runLen text i)) = true
    then some (i, i + runLen text i) else none)

/-- The corrected token spans: maximal runs of ASCII letters of length
at least `m` whose neighbouring characters (if any) are not word
characters (letters, digits, or underscore). -/
def specSpans (m : Nat) (text : List Char) : List (Nat × Nat) :=
  (List.range (text.length + 1)).filterMap (fun i =>
    if (!isWordOpt (prevAt none text i) && decide (m ≤ runLen text i)
        && !isWordOpt (charAt text (i + runLen text i))) = true
    then some (i, i + runLen text i) else none)

/-- `specSpans` relative to an explicit preceding character and offset,
the form the scanning induction works with. -/
def locSpec (m : Nat) (prev : Option Char) (s : List Char) (pos : Nat) :
    List (Nat × Nat) :=
  (List.range (s.length + 1)).filterMap (fun i =>
    if (!isWordOpt (prevAt prev s i) && decide (m ≤ runLen s i)
        && !isWordOpt (charAt s (i + runLen s i))) = true
    then some (pos + i, pos + i + runLen s i) else none)

theorem leadCount_le_length (p : Char → Bool) : ∀ s : List Char, leadCount p s ≤ s.length := by
  intro s
  induction s with
  | nil => simp [leadCount]
  | cons c t ih =>
    simp only [leadCount, List.length_cons]
    split <;> omega

theorem leadCount_pos_head (p : Char → Bool) (s : List Char)
    (h : 1 ≤ leadCount p s) : ∃ c t, s = c :: t ∧ p c = true := by
  cases s with
  | nil => simp [leadCount] at h
  | cons c t =>
    refine ⟨c, t, rfl, ?_⟩
    by_contra hc
    rw [Bool.not_eq_true] at hc
    simp [leadCount, hc] at h

theorem leadCount_eq_zero_of_head {p : Char → Bool} {s : List Char}
    (h : ∀ c, s.head? = some c → p c = false) : leadCount p s = 0 := by
  cases s with
  | nil => rfl
  | cons c t =>
    have := h c rfl
    simp [leadCount, this]

theorem mem_take_leadCount {p : Char → Bool} :
    ∀ {s : List Char} {k : Nat}, k ≤ leadCount p s → ∀ c ∈ s.take k, p c = true := by
  intro s
  induction s with
  | nil => intro k _ c hc; simp at hc
  | cons a t ih =>
    intro k hk c hc
    cases k with
    | zero => simp at hc
    | succ k =>
      simp only [leadCount] at hk
      by_cases hp : p a = true
      · rw [if_pos hp] at hk
        simp only [List.take_succ_cons, List.mem_cons] at hc
        rcases hc with rfl | hc
        · exact hp
        · exact ih (by omega) c hc
      · rw [if_neg hp] at hk
        omega

theorem leadCount_drop {p : Char → Bool} :
    ∀ {s : List Char} {k : Nat}, k ≤ leadCount p s →
      leadCount p (s.drop k) = leadCount p s - k := by
  intro s
  induction s with
  | nil => intro k hk; simp [leadCount] at hk ⊢
  | cons a t ih =>
    intro k hk
    cases k with
    | zero => simp
    | succ k =>
      simp only [leadCount] at hk ⊢
      by_cases hp : p a = true
      · rw [if_pos hp] at hk ⊢
        simp only [List.drop_succ_cons]
        rw [ih (by omega)]
        omega
      · rw [if_neg hp] at hk
        omega

theorem newPrev_cons (prev : Option Char) (c : Char) (l : List Char) :
    newPrev prev (c :: l) = newPrev (some c) l := by
  cases l with
  | nil => rfl
  | cons d l' =>
    simp only [newPrev, List.getLast?_cons_cons]
    cases hl : (d :: l').getLast? with
    | some x => rfl
    | none => simp at hl

theorem newPrev_of_ne_nil (prev : Option Char) {l : List Char} (h : l ≠ []) :
    ∃ c, newPrev prev l = some c ∧ c ∈ l := by
  induction l generalizing prev with
  | nil => exact absurd rfl h
  | cons a t ih =>
    cases t with
    | nil => exact ⟨a, rfl, List.mem_singleton_self a⟩
    | cons b t' =>
      obtain ⟨c, hc, hmem⟩ := ih (some a) (by simp)
      rw [newPrev_cons]
      exact ⟨c, hc, List.mem_cons_of_mem _ hmem⟩

theorem isLetterA_isWordChar {c : Char} (h : isLetterA c = true) : isWordChar c = true := by
  simp only [isLetterA, Char.isAlpha] at h
  simp only [isWordChar, Char.isAlphanum, h, Bool.true_or, Bool.or_eq_true]
  left
  left
  exact h

/-! Fuel bookkeeping for the token pattern. -/

theorem altsWeight_replicate_one (p : Char → Bool) (l : List Atom) :
    ∀ m, altsWeight (List.replicate m (Atom.one p) ++ l) = altsWeight l := by
  intro m
  induction m with
  | zero => rfl
  | succ m ih => simpa [List.replicate_succ, altsWeight] using ih

theorem engineFuel_tokPat (m : Nat) (s : List Char) :
    engineFuel (tokPat m) s = s.length + m + 5 := by
  simp only [engineFuel, tokPat, List.length_cons, List.length_append,
    List.length_replicate, altsWeight]
  rw [altsWeight_replicate_one]
  simp [altsWeight]
  omega

/-- Matching `k` forced class characters consumes exactly the first `k`
characters when the leading run is long enough, and fails otherwise. -/
theorem matchSeqF_replicate_one (p : Char → Bool) (rs : List Atom) :
    ∀ (k : Nat) (fuel : Nat) (prev : Option Char) (s : List Char),
      matchSeqF (fuel + k) (List.replicate k (Atom.one p) ++ rs) prev s =
        if k ≤ leadCount p s then
          matchSeqF fuel rs (newPrev prev (s.take k)) (s.drop k)
        else none := by
  intro k
  induction k with
  | zero =>
    intro fuel prev s
    simp [newPrev]
  | succ k ih =>
    intro fuel prev s
    rw [List.replicate_succ]
    cases s with
    | nil =>
      have : ¬ (k + 1 ≤ leadCount p ([] : List Char)) := by simp [leadCount]
      rw [if_neg this]
      rfl
    | cons c t =>
      show matchSeqF (fuel + k + 1) (Atom.one p :: (List.replicate k (Atom.one p) ++ rs))
        prev (c :: t) = _
      rw [matchSeqF]
      by_cases hp : p c = true
      · rw [if_pos hp, ih]
        simp only [leadCount, if_pos hp, List.take_succ_cons, List.drop_succ_cons,
          newPrev_cons]
        by_cases hk : k ≤ leadCount p t
        · rw [if_pos hk, if_pos (by omega)]
        · rw [if_neg hk, if_neg (by omega)]
      · rw [if_neg hp]
        have : ¬ (k + 1 ≤ leadCount p (c :: t)) := by
          simp only [leadCount, if_neg hp]
          omega
        rw [if_neg this]

/-- A greedy class star followed by `\b`, entered with a word character
on the left: it succeeds exactly when the character after the maximal
run is not a word character, consuming the whole run. -/
theorem matchSeqF_star_wb (p : Char → Bool)
    (hp : ∀ c, p c = true → isWordChar c = true) :
    ∀ (s : List Char) (fuel : Nat) (prev : Option Char),
      s.length + 3 ≤ fuel → isWordOpt prev = true →
      matchSeqF fuel [Atom.star p, Atom.wb] prev s =
        if isWordOpt (charAt s (leadCount p s)) = true then none
        else some (s.drop (leadCount p s)) := by
  intro s
  induction s with
  | nil =>
    intro fuel prev hfuel hprev
    obtain ⟨f, rfl⟩ : ∃ f, fuel = f + 3 := ⟨fuel - 3, by omega⟩
    show matchSeqF (f + 2 + 1) [Atom.star p, Atom.wb] prev [] = _
    rw [matchSeqF]
    show matchSeqF (f + 1 + 1) [Atom.wb] prev [] = _
    rw [matchSeqF]
    have hb : atBoundary prev [] = true := by
      simp [atBoundary, hprev, isWordOpt_none]
    rw [if_pos hb]
    show some [] = _
    simp [leadCount, charAt, isWordOpt]
  | cons c t ih =>
    intro fuel prev hfuel hprev
    obtain ⟨f, rfl⟩ : ∃ f, fuel = f + 1 := ⟨fuel - 1, by omega⟩
    rw [matchSeqF]
    by_cases hpc : p c = true
    · rw [if_pos hpc]
      rw [ih f (some c) (by simp at hfuel ⊢; omega)
        (by rw [isWordOpt_some]; exact hp c hpc)]
      simp only [leadCount, if_pos hpc]
      by_cases hw : isWordOpt (charAt t (leadCount p t)) = true
      · rw [if_pos hw]
        have hcharAt : charAt (c :: t) (leadCount p t + 1) = charAt t (leadCount p t) := rfl
        rw [if_pos (by rw [hcharAt]; exact hw)]
        show matchSeqF f [Atom.wb] prev (c :: t) = none
        obtain ⟨g, rfl⟩ : ∃ g, f = g + 1 := ⟨f - 1, by simp at hfuel; omega⟩
        rw [matchSeqF]
        have hb : atBoundary prev (c :: t) = false := by
          simp [atBoundary, hprev, isWordOpt_some, hp c hpc]
        rw [if_neg (by simp [hb])]
      · rw [if_neg hw]
        have hcharAt : charAt (c :: t) (leadCount p t + 1) = charAt t (leadCount p t) := rfl
        rw [if_neg (by rw [hcharAt]; exact hw)]
        rfl
    · rw [if_neg hpc]
      have hlc : leadCount p (c :: t) = 0 := by simp [leadCount, hpc]
      rw [hlc]
      have hcharAt : charAt (c :: t) 0 = some c := rfl
      show matchSeqF f [Atom.wb] prev (c :: t) = _
      obtain ⟨g, rfl⟩ : ∃ g, f = g + 1 := ⟨f - 1, by simp at hfuel; omega⟩
      rw [matchSeqF]
      by_cases hwc : isWordChar c = true
      · have hb : atBoundary prev (c :: t) = false := by
          simp [atBoundary, hprev, isWordOpt_some, hwc]
        rw [if_neg (by simp [hb])]
        rw [if_pos (by rw [hcharAt, isWordOpt_some]; exact hwc)]
      · have hb : atBoundary prev (c :: t) = true := by
          simp [atBoundary, hprev, isWordOpt_some, hwc]
        rw [if_pos hb]
        obtain ⟨g2, rfl⟩ : ∃ g2, g = g2 + 1 := ⟨g - 1, by simp at hfuel; omega⟩
        rw [matchSeqF]
        rw [if_neg (by rw [hcharAt, isWordOpt_some]; exact hwc)]
        rfl

/-- The full token pattern `\b[a-zA-Z]{m,}\b` matches at a position iff
the position is not preceded by a word character, the letter run there
has length at least `m`, and the character after the run is not a word
character; it consumes exactly the run. -/
theorem matchSeqF_tokPat (m : Nat) (hm : 1 ≤ m) :
    ∀ (s : List Char) (prev : Option Char) (fuel : Nat),
      s.length + m + 4 ≤ fuel →
      matchSeqF fuel (tokPat m) prev s =
        if (!isWordOpt prev && decide (m ≤ leadCount isLetterA s)
            && !isWordOpt (charAt s (leadCount isLetterA s))) = true
        then some (s.drop (leadCount isLetterA s)) else none := by
  intro s prev fuel hfuel
  obtain ⟨f, rfl⟩ : ∃ f, fuel = f + 1 := ⟨fuel - 1, by omega⟩
  show matchSeqF (f + 1) (Atom.wb :: (List.replicate m (Atom.one isLetterA) ++
    [Atom.star isLetterA, Atom.wb])) prev s = _
  rw [matchSeqF]
  by_cases hb : atBoundary prev s = true
  · rw [if_pos hb]
    obtain ⟨g, rfl⟩ : ∃ g, f = g + m := ⟨f - m, by omega⟩
    rw [matchSeqF_replicate_one]
    by_cases hk : m ≤ leadCount isLetterA s
    · rw [if_pos hk]
      have htk : s.take m ≠ [] := by
        have h1 : (s.take m).length = m := by
          have := leadCount_le_length isLetterA s
          simp only [List.length_take]
          omega
        intro hnil
        rw [hnil] at h1
        simp at h1
        omega
      obtain ⟨c, hc, hcm⟩ := newPrev_of_ne_nil prev htk
      have hcl : isLetterA c = true := mem_take_leadCount hk c hcm
      have hstar := matchSeqF_star_wb isLetterA (fun c h => isLetterA_isWordChar h)
        (s.drop m) g (newPrev prev (s.take m))
        (by simp only [List.length_drop]; omega)
        (by rw [hc, isWordOpt_some]; exact isLetterA_isWordChar hcl)
      rw [hstar]
      rw [leadCount_drop hk]
      have hdd : (s.drop m).drop (leadCount isLetterA s - m) = s.drop (leadCount isLetterA s) := by
        rw [List.drop_drop]
        congr 1
        omega
      have hca : charAt (s.drop m) (leadCount isLetterA s - m) =
          charAt s (leadCount isLetterA s) := by
        simp only [charAt, List.drop_drop]
        congr 2
        omega
      rw [hdd, hca]
      have hnp : isWordOpt prev = false := by
        obtain ⟨c0, t0, rfl, hc0⟩ := leadCount_pos_head isLetterA s (by omega)
        have : isWordOpt (some c0) = true := by
          rw [isWordOpt_some]; exact isLetterA_isWordChar hc0
        simp only [atBoundary, List.head?] at hb
        rw [this] at hb
        cases ho : isWordOpt prev
        · rfl
        · rw [ho] at hb
          simp at hb
      rw [hnp]
      simp only [Bool.not_false, Bool.true_and, decide_eq_true hk, Bool.true_and]
      by_cases hw : isWordOpt (charAt s (leadCount isLetterA s)) = true
      · rw [if_pos hw, hw]
        simp
      · rw [if_neg hw]
        rw [Bool.not_eq_true] at hw
        rw [hw]
        simp
    · rw [if_neg hk]
      simp [decide_eq_false hk]
  · rw [if_neg hb]
    rw [Bool.not_eq_true] at hb
    by_cases hnp : isWordOpt prev = true
    · rw [hnp]
      simp
    · rw [Bool.not_eq_true] at hnp
      have hhead : isWordOpt s.head? = false := by
        simp only [atBoundary, hnp, Bool.not_eq_true] at hb
        cases ho : isWordOpt s.head?
        · rfl
        · rw [ho] at hb
          simp at hb
      have hlc : leadCount isLetterA s = 0 := by
        apply leadCount_eq_zero_of_head
        intro c hc
        rw [hc, isWordOpt_some] at hhead
        cases hl : isLetterA c
        · rfl
        · rw [isLetterA_isWordChar hl] at hhead
          simp at hhead
      rw [hlc]
      have : charAt s 0 = s.head? := by simp [charAt]
      rw [this, hhead]
      have hm0 : ¬ (m ≤ 0) := by omega
      simp [hnp, decide_eq_false hm0]
      rw [if_neg (by omega : ¬ m = 0)]

/-- Peeling the first position off `locSpec`: the candidate span at the
current position (if its conditions hold), followed by the spans over
the tail with the consumed character as the new preceding character. -/
theorem locSpec_cons (m : Nat) (prev : Option Char) (c : Char) (t : List Char) (pos : Nat) :
    locSpec m prev (c :: t) pos =
      (if (!isWordOpt prev && decide (m ≤ runLen (c :: t) 0)
          && !isWordOpt (charAt (c :: t) (runLen (c :: t) 0))) = true
       then [(pos, pos + runLen (c :: t) 0)] else [])
      ++ locSpec m (some c) t (pos + 1) := by
  unfold locSpec
  rw [show (c :: t).length + 1 = t.length + 1 + 1 from by simp]
  rw [List.range_succ_eq_map, List.filterMap_cons, List.filterMap_map]
  have hcomp : ∀ i : Nat,
      ((fun i => if (!isWordOpt (prevAt prev (c :: t) i) && decide (m ≤ runLen (c :: t) i)
          && !isWordOpt (charAt (c :: t) (i + runLen (c :: t) i))) = true
        then some (pos + i, pos + i + runLen (c :: t) i) else none) ∘ Nat.succ) i =
      (fun i => if (!isWordOpt (prevAt (some c) t i) && decide (m ≤ runLen t i)
          && !isWordOpt (charAt t (i + runLen t i))) = true
        then some (pos + 1 + i, pos + 1 + i + runLen t i) else none) i := by
    intro i
    simp only [Function.comp_apply]
    have e1 : prevAt prev (c :: t) (Nat.succ i) = prevAt (some c) t i := by
      cases i <;> rfl
    have e2 : runLen (c :: t) (Nat.succ i) = runLen t i := rfl
    have e3 : charAt (c :: t) (Nat.succ i + runLen t i) = charAt t (i + runLen t i) := by
      rw [show Nat.succ i + runLen t i = (i + runLen t i) + 1 from by omega]
      rfl
    rw [e1, e2, e3]
    rw [show pos + Nat.succ i = pos + 1 + i from by omega]
  rw [List.filterMap_congr (fun i _ => hcomp i)]
  have e0a : prevAt prev (c :: t) 0 = prev := rfl
  have e0b : charAt (c :: t) (0 + runLen (c :: t) 0) = charAt (c :: t) (runLen (c :: t) 0) := by
    rw [Nat.zero_add]
  by_cases hcond : (!isWordOpt prev && decide (m ≤ runLen (c :: t) 0)
      && !isWordOpt (charAt (c :: t) (runLen (c :: t) 0))) = true
  · rw [if_pos hcond]
    have : (if (!isWordOpt (prevAt prev (c :: t) 0) && decide (m ≤ runLen (c :: t) 0)
        && !isWordOpt (charAt (c :: t) (0 + runLen (c :: t) 0))) = true
        then some (pos + 0, pos + 0 + runLen (c :: t) 0) else none) =
        some (pos, pos + runLen (c :: t) 0) := by
      rw [e0a, e0b, if_pos hcond, Nat.add_zero]
    rw [this]
    rfl
  · rw [if_neg hcond]
    have : (if (!isWordOpt (prevAt prev (c :: t) 0) && decide (m ≤ runLen (c :: t) 0)
        && !isWordOpt (charAt (c :: t) (0 + runLen (c :: t) 0))) = true
        then some (pos + 0, pos + 0 + runLen (c :: t) 0) else none) = none := by
      rw [e0a, e0b, if_neg hcond]
    rw [this]
    rfl

/-- Skipping positions inside the letter run: every position whose
preceding character is a word character contributes no span, so
`locSpec` is unchanged by jumping `k` letters forward. -/
theorem locSpec_skip (m : Nat) :
    ∀ (k : Nat) (s : List Char) (prev : Option Char) (pos : Nat),
      k ≤ leadCount isLetterA s → isWordOpt prev = true →
      locSpec m prev s pos =
        locSpec m (newPrev prev (s.take k)) (s.drop k) (pos + k) := by
  intro k
  induction k with
  | zero =>
    intro s prev pos _ _
    simp [newPrev]
  | succ k ih =>
    intro s prev pos hk hprev
    obtain ⟨c, t, rfl, hc⟩ := leadCount_pos_head isLetterA s (by omega)
    rw [locSpec_cons]
    have hcond : (!isWordOpt prev && decide (m ≤ runLen (c :: t) 0)
        && !isWordOpt (charAt (c :: t) (runLen (c :: t) 0))) = false := by
      rw [hprev]
      simp
    rw [hcond]
    simp only [Bool.false_eq_true, if_false, List.nil_append]
    have hk' : k ≤ leadCount isLetterA t := by
      simp only [leadCount, if_pos hc] at hk
      omega
    rw [ih t (some c) (pos + 1) hk' (by rw [isWordOpt_some]; exact isLetterA_isWordChar hc)]
    rw [List.take_succ_cons, List.drop_succ_cons, newPrev_cons]
    rw [show pos + 1 + k = pos + (k + 1) from by omega]

/-- The `finditer` scan of the token pattern computes exactly the
locally-characterized spans. -/
theorem scanF_tokPat_locSpec (m : Nat) (hm : 1 ≤ m) :
    ∀ (fuel : Nat) (s : List Char) (prev : Option Char) (pos : Nat),
      s.length + 1 ≤ fuel →
      scanF (tokPat m) fuel prev s pos = locSpec m prev s pos := by
  intro fuel
  induction fuel with
  | zero => intro s prev pos h; omega
  | succ fuel ih =>
    intro s prev pos hfuel
    have hC := matchSeqF_tokPat m hm s prev (engineFuel (tokPat m) s)
      (by rw [engineFuel_tokPat]; omega)
    cases s with
    | nil =>
      rw [scanF]
      have hc0 : (!isWordOpt prev && decide (m ≤ leadCount isLetterA ([] : List Char))
          && !isWordOpt (charAt [] (leadCount isLetterA ([] : List Char)))) = false := by
        have : ¬ (m ≤ leadCount isLetterA ([] : List Char)) := by
          simp [leadCount]; omega
        simp [decide_eq_false this]
      rw [hc0] at hC
      simp only [Bool.false_eq_true, if_false] at hC
      rw [hC]
      unfold locSpec
      simp only [List.length_nil]
      have hrange : List.range (0 + 1) = [0] := rfl
      have hif : (!isWordOpt (prevAt prev ([] : List Char) 0)
          && decide (m ≤ runLen ([] : List Char) 0)
          && !isWordOpt (charAt ([] : List Char) (0 + runLen ([] : List Char) 0))) = false := by
        have h0 : ¬ (m ≤ runLen ([] : List Char) 0) := by
          simp [runLen, leadCount]; omega
        simp [decide_eq_false h0]
      rw [hrange, List.filterMap_cons, List.filterMap_nil]
      simp only [hif, Bool.false_eq_true, if_false]
    | cons c t =>
      rw [scanF]
      by_cases hcond : (!isWordOpt prev && decide (m ≤ leadCount isLetterA (c :: t))
          && !isWordOpt (charAt (c :: t) (leadCount isLetterA (c :: t)))) = true
      · rw [if_pos hcond] at hC
        simp only [hC]
        have hr1 : 1 ≤ leadCount isLetterA (c :: t) := by
          have := hcond
          simp only [Bool.and_eq_true, decide_eq_true_eq] at this
          omega
        have hrlen : leadCount isLetterA (c :: t) ≤ (c :: t).length :=
          leadCount_le_length _ _
        have hk : (c :: t).length - (List.drop (leadCount isLetterA (c :: t)) (c :: t)).length
            = leadCount isLetterA (c :: t) := by
          rw [List.length_drop]
          omega
        rw [hk]
        rw [if_neg (by omega : ¬ leadCount isLetterA (c :: t) = 0)]
        rw [ih (List.drop (leadCount isLetterA (c :: t)) (c :: t))
          (newPrev prev (List.take (leadCount isLetterA (c :: t)) (c :: t)))
          (pos + leadCount isLetterA (c :: t))
          (by rw [List.length_drop]; simp only [List.length_cons] at hfuel ⊢; omega)]
        rw [locSpec_cons]
        have hcond' : (!isWordOpt prev && decide (m ≤ runLen (c :: t) 0)
            && !isWordOpt (charAt (c :: t) (runLen (c :: t) 0))) = true := hcond
        rw [hcond']
        simp only [if_true]
        have hskip := locSpec_skip m (leadCount isLetterA (c :: t) - 1) t (some c) (pos + 1)
          (by
            simp only [leadCount, if_pos (by
              obtain ⟨c', t', heq, hc'⟩ := leadCount_pos_head isLetterA (c :: t) hr1
              obtain rfl := (List.cons.inj heq).1
              exact hc')] at hr1 ⊢
            omega)
          (by
            rw [isWordOpt_some]
            apply isLetterA_isWordChar
            obtain ⟨c', t', heq, hc'⟩ := leadCount_pos_head isLetterA (c :: t) hr1
            obtain rfl := (List.cons.inj heq).1
            exact hc')
        rw [hskip]
        have e1 : List.take (leadCount isLetterA (c :: t)) (c :: t) =
            c :: List.take (leadCount isLetterA (c :: t) - 1) t := by
          rw [show leadCount isLetterA (c :: t) = (leadCount isLetterA (c :: t) - 1) + 1
            from by omega]
          rfl
        have e2 : List.drop (leadCount isLetterA (c :: t)) (c :: t) =
            List.drop (leadCount isLetterA (c :: t) - 1) t := by
          rw [show leadCount isLetterA (c :: t) = (leadCount isLetterA (c :: t) - 1) + 1
            from by omega]
          rfl
        rw [e1, e2, newPrev_cons]
        rw [show pos + 1 + (leadCount isLetterA (c :: t) - 1)
          = pos + leadCount isLetterA (c :: t) from by omega]
        rfl
      · rw [if_neg hcond] at hC
        simp only [hC]
        rw [ih t (some c) (pos + 1) (by simp only [List.length_cons] at hfuel; omega)]
        rw [locSpec_cons]
        have hcond' : (!isWordOpt prev && decide (m ≤ runLen (c :: t) 0)
            && !isWordOpt (charAt (c :: t) (runLen (c :: t) 0))) = false := by
          rw [Bool.not_eq_true] at hcond
          exact hcond
        rw [hcond']
        rfl

/-- C8 counterexample: on the text `"abc1"` with minimum length 3, the
claimed tokenization (maximal runs of ASCII letters of length at least
the minimum) contains the run `"abc"` at span `(0, 3)`, but the code's
tokenizer emits no token at all: `\b` fails between `c` and the
adjacent digit `1`. -/
theorem C8_counterexample :
    tokenSpans 3 "abc1".data = [] ∧ claimSpans 3 "abc1".data = [(0, 3)] := by
  constructor
  · decide
  · decide

/-- C8 (amended): the tokens considered by `spell_check_text` are
exactly the maximal runs of ASCII letters of length at least the
configured minimum whose neighbouring characters (if any) are not word
characters (letters, digits, or underscore); each token is lower-cased
for the dictionary lookup while the original-case surface form is
preserved in the emitted finding. -/
theorem C8_tokenization_characterization :
    (∀ (m : Nat), 1 ≤ m → ∀ (text : List Char), tokenSpans m text = specSpans m text)
    ∧ ∀ (cfg : SCConfig) (known : List Char → Bool)
        (cand : List Char → List (List Char)) (url : String) (text : List Char)
        (e : SpellingError), e ∈ spellCheckText cfg known cand url text →
        ∃ ij ∈ tokenSpans cfg.minWordLength text,
          e.position = ij.1 ∧ e.word = (text.drop ij.1).take (ij.2 - ij.1)
          ∧ e.wordLower = lowerL e.word ∧ known e.wordLower = false := by
  constructor
  · intro m hm text
    have h1 : tokenSpans m text = scanF (tokPat m) (text.length + 1) none text 0 := rfl
    rw [h1, scanF_tokPat_locSpec m hm (text.length + 1) text none 0 (by omega)]
    unfold locSpec specSpans
    apply List.filterMap_congr
    intro i _
    rw [Nat.zero_add]
  · intro cfg known cand url text e he
    obtain ⟨ij, hij, hf⟩ := List.mem_filterMap.mp he
    simp only at hf
    split at hf
    · exact absurd hf (by simp)
    · split at hf
      · exact absurd hf (by simp)
      · split at hf
        · exact absurd hf (by simp)
        · next hdict =>
          obtain rfl := Option.some.inj hf
          exact ⟨ij, hij, rfl, rfl, rfl, by
            simp only [Bool.not_eq_true] at hdict
            exact hdict⟩

/-- C8 witness: the amended characterization applied at a concrete
minimum length and text. -/
theorem C8_witness :
    tokenSpans 3 "ab cdef 12x".data = specSpans 3 "ab cdef 12x".data :=
  C8_tokenization_characterization.1 3 (by decide) "ab cdef 12x".data

/-! ### C4: sitemap resolution -/

/-- The visited-set guard of `_parse_sitemap`: over any worklist and any
starting visited set, the trace of fetched sitemap URLs has no
duplicates, and no URL already visited at the start is ever fetched.
Because `parseSitemaps` is a total function (its recursion is
well-founded: each fetch permanently shrinks the unvisited universe),
this also witnesses termination on every sitemap graph, cyclic ones
included. -/
theorem parseSitemaps_fetched_inv :
    ∀ (fetch : String → Option SitemapDoc) (univ : List String)
      (wl vis : List String),
      (parseSitemaps fetch univ wl vis).fetched.Nodup
      ∧ ∀ u ∈ (parseSitemaps fetch univ wl vis).fetched, u ∉ vis := by
  intro fetch univ wl vis
  induction wl, vis using parseSitemaps.induct fetch univ with
  | case1 vis =>
    rw [parseSitemaps]
    simp
  | case2 u rest vis hvis ih =>
    rw [parseSitemaps]
    simp only [if_pos hvis]
    exact ih
  | case3 u rest vis hvis hu hfetch ih =>
    rw [parseSitemaps]
    simp only [if_neg hvis, dif_pos hu, hfetch]
    obtain ⟨ihn, ihv⟩ := ih
    constructor
    · simp only [List.nodup_cons]
      refine ⟨fun hmem => ?_, ihn⟩
      have := ihv _ hmem
      simp at this
    · intro v hv
      simp only [List.mem_cons] at hv
      rcases hv with rfl | hv
      · exact hvis
      · have := ihv _ hv
        simp only [List.mem_cons, not_or] at this
        exact this.2
  | case4 u rest vis hvis hu doc hfetch ih =>
    rw [parseSitemaps]
    simp only [if_neg hvis, dif_pos hu, hfetch]
    obtain ⟨ihn, ihv⟩ := ih
    constructor
    · simp only [List.nodup_cons]
      refine ⟨fun hmem => ?_, ihn⟩
      have := ihv _ hmem
      simp at this
    · intro v hv
      simp only [List.mem_cons] at hv
      rcases hv with rfl | hv
      · exact hvis
      · have := ihv _ hv
        simp only [List.mem_cons, not_or] at this
        exact this.2
  | case5 u rest vis hvis hu ih =>
    rw [parseSitemaps]
    simp only [if_neg hvis, dif_neg hu]
    exact ih

/-- C4: sitemap resolution fetches each sitemap URL at most once — the
fetch trace of a resolution has no duplicates and avoids every URL
already in the visited set — and, `parseSitemaps` being total, the
resolution terminates on every sitemap graph, including cyclic and
self-referencing ones. -/
theorem C4_sitemap_fetch_at_most_once :
    ∀ (fetch : String → Option SitemapDoc) (univ : List String)
      (wl vis : List String),
      (parseSitemaps fetch univ wl vis).fetched.Nodup
      ∧ ((parseSitemaps fetch univ wl vis).fetched.all
          (fun u => decide (u ∉ vis))) = true := by
  intro fetch univ wl vis
  obtain ⟨hn, hv⟩ := parseSitemaps_fetched_inv fetch univ wl vis
  refine ⟨hn, ?_⟩
  rw [List.all_eq_true]
  intro u hu
  exact decide_eq_true (hv u hu)

/-- C5: starting from the seed, the crawl's discovered URL set has size
at most `maxPages`; no page at depth `maxDepth` or beyond has its links
extracted or enqueued (it may itself be recorded); and every enqueued
URL passed both the internal-to-seed check and the validity check. -/
theorem C5_crawl_bounds :
    ∀ (fetch : String → CrawlFetch) (parse : String → URLParts)
      (join : String → String → String) (base : String) (maxD maxP fuel : Nat),
      (recursiveCrawl fetch parse join base maxD maxP fuel (crawlInit base)).urls.length ≤ maxP
      ∧ ((recursiveCrawl fetch parse join base maxD maxP fuel
          (crawlInit base)).expandedAt.all (fun p => decide (p.2 < maxD))) = true
      ∧ ((recursiveCrawl fetch parse join base maxD maxP fuel
          (crawlInit base)).enqueuedL.all
            (fun p => isInternalUrl parse p.1 base && isValidUrl parse p.1)) = true := by
  intro fetch parse join base maxD maxP fuel
  obtain ⟨g1, g2, g3⟩ := recursiveCrawl_inv fetch parse join base maxD maxP fuel
    (crawlInit base) (by simp [crawlInit]) (by simp [crawlInit]) (by simp [crawlInit])
  refine ⟨g1, ?_, ?_⟩
  · rw [List.all_eq_true]
    intro p hp
    exact decide_eq_true (g2 p hp)
  · rw [List.all_eq_true]
    intro p hp
    exact g3 p hp

end WebCheck
